import Mathlib

/-!
Shallow embedding of mbutil (src/mbutil/util.py), a tool converting between
an MBTiles archive (tables `tiles` and `metadata`) and a directory tree of
tile files.  The source is Python 2: `/` on ints is floor division,
`math.ceil` returns a float, `round` rounds half away from zero, and the
dyadic values involved (4, 1, 0.25) are exact floats, so the integer and
exact-rational semantics used here agree with the source's float
arithmetic on all realistic inputs.  External collaborators (sqlite3,
gzip at compresslevel 6, json) are modelled as: an explicit table state
with the unique-index check, an abstract `compress` function parameter,
and an abstract `parseJSON` function parameter.  File-system effects are
modelled explicitly: the input tree is a value, the output is the list of
file writes the operation performs.
-/

namespace Mbutil

/-- Python exception kinds raised by the embedded operations:
ValueError (int() / unpacking failures), IOError (open failures),
IntegrityError (unique-index violation), OSError (os.mkdir on an
existing directory). -/
inductive PyErr where
  | valueError
  | ioError
  | integrityError
  | osError
  deriving DecidableEq, Repr

/-- A directory-tree entry: a regular file with its byte content, or a
subdirectory with named entries listed in `os.listdir` order. -/
inductive FSEntry where
  | file (content : List Nat)
  | dir (entries : List (String × FSEntry))

/-- Whether an entry is a directory (`os.path.isdir`). -/
def FSEntry.isDir : FSEntry → Bool
  | .file _ => false
  | .dir _ => true

/-- The children of a directory entry (empty for a file). -/
def FSEntry.entries : FSEntry → List (String × FSEntry)
  | .file _ => []
  | .dir es => es

/-- get_dirs from the source: the entries of a directory that are
themselves directories. -/
def get_dirs (entries : List (String × FSEntry)) : List (String × FSEntry) :=
  entries.filter (fun p => p.2.isDir)

/-- Split a character list at the first '.', returning the parts before
and after it; none when no '.' occurs. -/
def splitCharsAtDot : List Char → Option (List Char × List Char)
  | [] => none
  | c :: cs =>
    if c = '.' then some ([], cs)
    else
      match splitCharsAtDot cs with
      | none => none
      | some (a, b) => some (c :: a, b)

/-- Python's `name.split('.', 1)` unpacked into two values: the part
before the first dot and the rest.  When the name contains no dot the
unpacking raises ValueError, modelled as `none`. -/
def splitExt (s : String) : Option (String × String) :=
  match splitCharsAtDot s.data with
  | none => none
  | some (a, b) => some (String.mk a, String.mk b)

/-- Decimal digit value of a character, none for non-digits. -/
def digitVal (c : Char) : Option Nat :=
  if c.isDigit then some (c.toNat - 48) else none

/-- Accumulating decimal parser over characters. -/
def parseDigits : Nat → List Char → Option Nat
  | acc, [] => some acc
  | acc, c :: cs =>
    match digitVal c with
    | none => none
    | some d => parseDigits (acc * 10 + d) cs

/-- Python `int(s)` on a decimal string with optional leading minus sign;
none models the ValueError raised on malformed input. -/
def pyInt (s : String) : Option Int :=
  match s.data with
  | [] => none
  | '-' :: cs =>
    match cs with
    | [] => none
    | _ => (parseDigits 0 cs).map (fun n => -(n : Int))
  | cs => (parseDigits 0 cs).map (fun n => (n : Int))

/-- The character of a decimal digit. -/
def digitChar (n : Nat) : Char := Char.ofNat (48 + n)

/-- Decimal digits of a natural number, most significant first; the fuel
argument (any bound of at least the digit count, n + 1 suffices) keeps
the recursion structural. -/
def natDigits : Nat → Nat → List Char
  | 0, _ => []
  | fuel + 1, n => if n < 10 then [digitChar n] else natDigits fuel (n / 10) ++ [digitChar (n % 10)]

/-- Python `str()` of an integer. -/
def pyStr (i : Int) : String :=
  if i < 0 then String.mk ('-' :: natDigits (i.natAbs + 1) i.natAbs)
  else String.mk (natDigits (i.natAbs + 1) i.natAbs)

/-- Left-pad a character list with '0' to the given width. -/
def padZeros (w : Nat) (cs : List Char) : List Char :=
  List.replicate (w - cs.length) '0' ++ cs

/-- Python `"%0Nd" % i` zero-padded formatting (the sign counts towards
the width, as in Python). -/
def pyFmtZ (w : Nat) (i : Int) : String :=
  if i < 0 then String.mk ('-' :: padZeros (w - 1) (natDigits (i.natAbs + 1) i.natAbs))
  else String.mk (padZeros w (natDigits (i.natAbs + 1) i.natAbs))

/-- flip_y from the source: `(2**zoom - 1) - y`.  The archive only ever
holds non-negative zoom levels in well-formed use; for zoom < 0 Python
would leave the integers (2**zoom is a float), so the model takes
`zoom.toNat`. -/
def flip_y (zoom y : Int) : Int := (2 ^ zoom.toNat - 1) - y

/-- tile_size from the source, as the exact rational values of the
Python floats: 4 by default, 1 at zoom 1, 0.25 at zoom 2; every zoom
level at least 3 falls through to the default 4. -/
def tile_size (zoom_level : Int) : ℚ :=
  if zoom_level = 1 then 1 else if zoom_level = 2 then 1 / 4 else 4

/-- n_columns from the source: `math.ceil((maxx - minx) / tile_size)`
with maxx = 180 and minx = -180.  Stated by integer case analysis so
the importer is kernel-computable; `n_columns_eq_ceil` proves it
equal to the rational ceiling the source computes. -/
def n_columns (zoom_level : Int) : Int :=
  if zoom_level = 1 then 360 else if zoom_level = 2 then 1440 else 90

/-- Python `round(a / b)` (true division, then rounding half away from
zero) for b > 0, implemented with integer arithmetic; `pyRound_eq_roundQ`
proves it equal to the rational specification `pyRoundQ`. -/
def pyRound (a b : Int) : Int :=
  if 0 ≤ a then (2 * a + b) / (2 * b) else -((2 * (-a) + b) / (2 * b))

/-- The rational specification of Python 2 `round`: half away from
zero. -/
def pyRoundQ (q : ℚ) : Int := if 0 ≤ q then ⌊q + 1 / 2⌋ else -⌊-q + 1 / 2⌋

/-- One row of the `tiles` table. -/
structure TileRow where
  zoom_level : Int
  tile_column : Int
  tile_row : Int
  tile_data : List Nat
  deriving DecidableEq, Repr

/-- Insert into `tiles`: the unique index on (zoom_level, tile_column,
tile_row) makes a duplicate key fail with IntegrityError. -/
def insertTile (tbl : List TileRow) (r : TileRow) : Except PyErr (List TileRow) :=
  if tbl.any (fun x =>
      x.zoom_level == r.zoom_level && x.tile_column == r.tile_column && x.tile_row == r.tile_row)
  then .error .integrityError
  else .ok (tbl ++ [r])

/-- The row the source inserts for a leaf file: tile_row is
`round(tile_id / n_columns)` and tile_column is `tile_id % n_columns`
(Python `%` with a positive modulus agrees with `Int.emod`). -/
def mkTileRow (zoom tile_id : Int) (data : List Nat) : TileRow :=
  TileRow.mk zoom (tile_id % n_columns zoom) (pyRound tile_id (n_columns zoom)) data

/-- The depth-0 body of read_tiles: every entry of the leaf directory is
processed in order.  The name is split at its first dot (no dot raises
ValueError); the source's `if (ext != image_format): pass` branch is a
no-op, so the extension comparison has no effect and every file falls
through to being read and inserted; opening a subdirectory as a file
raises IOError; a non-integer stem raises ValueError. -/
def leafPass (compress : List Nat → List Nat) (zoom base : Int) (image_format : Option String) :
    List (String × FSEntry) → List TileRow → Except PyErr (List TileRow)
  | [], tbl => .ok tbl
  | (name, entry) :: rest, tbl =>
    match splitExt name with
    | none => .error .valueError
    | some (file_name, _ext) =>
      match entry with
      | .dir _ => .error .ioError
      | .file content =>
        match pyInt file_name with
        | none => .error .valueError
        | some n =>
          match insertTile tbl (mkTileRow zoom (base + n) (compress content)) with
          | .error e => .error e
          | .ok tbl' => leafPass compress zoom base image_format rest tbl'

/-- The depth > 0 body of read_tiles: for each integer-named
subdirectory, add `idx * 10 ** (depth * 3)` to the base tile id and
recurse one level shallower (the recursive call is passed in as
`recur`). -/
def dirPass (recur : Int → List (String × FSEntry) → List TileRow → Except PyErr (List TileRow))
    (depth : Nat) (base : Int) :
    List (String × FSEntry) → List TileRow → Except PyErr (List TileRow)
  | [], tbl => .ok tbl
  | (name, entry) :: rest, tbl =>
    match pyInt name with
    | none => .error .valueError
    | some idx =>
      match recur (base + idx * 10 ^ (depth * 3)) entry.entries tbl with
      | .error e => .error e
      | .ok tbl' => dirPass recur depth base rest tbl'

/-- read_tiles from the source, threading the tiles table through. -/
def read_tiles (compress : List Nat → List Nat) (zoom : Int) (image_format : Option String) :
    Nat → Int → List (String × FSEntry) → List TileRow → Except PyErr (List TileRow)
  | 0, base, entries, tbl => leafPass compress zoom base image_format entries tbl
  | depth + 1, base, entries, tbl =>
    dirPass (fun b es t => read_tiles compress zoom image_format depth b es t)
      (depth + 1) base (get_dirs entries) tbl

/-- The zoom-level loop of disk_to_mbtiles: each integer-named
subdirectory of the root is walked at depth 2 when its zoom is at least
2 and at depth 1 otherwise. -/
def zoomPass (compress : List Nat → List Nat) (image_format : Option String) :
    List (String × FSEntry) → List TileRow → Except PyErr (List TileRow)
  | [], tbl => .ok tbl
  | (name, entry) :: rest, tbl =>
    match pyInt name with
    | none => .error .valueError
    | some z =>
      match read_tiles compress z image_format (if 2 ≤ z then 2 else 1) 0 entry.entries tbl with
      | .error e => .error e
      | .ok tbl' => zoomPass compress image_format rest tbl'

/-- Python `open(os.path.join(dir, name))` succeeding only when `name`
names a regular file in `dir` (opening a directory or a missing name
raises IOError, which the metadata branch of the source catches). -/
def findFile (entries : List (String × FSEntry)) (name : String) : Option (List Nat) :=
  match entries.find? (fun p => p.1 == name) with
  | some (_, .file c) => some c
  | _ => none

/-- disk_to_mbtiles from the source.  `compress` stands for the gzip
compresslevel-6 wrapping of a tile file's bytes, `parseJSON` for
json.load (its failure, a ValueError, is not caught by the source).
When metadata.json is missing the IOError is caught: metadata stays
empty and the walk proceeds; when present, the source reassigns
image_format to `kwargs.get('format')` (no default).  The result is the
(metadata, tiles) table contents. -/
def disk_to_mbtiles (compress : List Nat → List Nat)
    (parseJSON : List Nat → Except PyErr (List (String × String)))
    (root : List (String × FSEntry)) (format : Option String) :
    Except PyErr (List (String × String) × List TileRow) :=
  let image_format := some (format.getD ("gph"))
  match findFile root ("metadata.json") with
  | none =>
    match zoomPass compress image_format (get_dirs root) [] with
    | .error e => .error e
    | .ok tbl => .ok ([], tbl)
  | some content =>
    match parseJSON content with
    | .error e => .error e
    | .ok pairs =>
      match zoomPass compress format (get_dirs root) [] with
      | .error e => .error e
      | .ok tbl => .ok (pairs, tbl)

/-- Content of a file written by the exporter: the json.dump of the
metadata dict, the layer.json formatter object, or raw tile bytes. -/
inductive FileData where
  | jsonObj (pairs : List (String × String))
  | formatterObj (value : String)
  | bytes (b : List Nat)
  deriving DecidableEq, Repr

/-- Python dict update: replace the value in place if the key is
present, else append. -/
def dictAdd : List (String × String) → String × String → List (String × String)
  | [], kv => [kv]
  | (k, v) :: rest, kv => if k == kv.1 then (k, kv.2) :: rest else (k, v) :: dictAdd rest kv

/-- Python `dict(pairs)`: later bindings of a key win. -/
def dictOf (l : List (String × String)) : List (String × String) := l.foldl dictAdd []

/-- Python `dict.get`. -/
def dictGet : List (String × String) → String → Option String
  | [], _ => none
  | (k, v) :: rest, key => if k == key then some v else dictGet rest key

/-- The output path (as its segments under the target directory) of one
tile in mbtiles_to_disk: xyz flips the row and uses plain decimal
components; wms nests zero-padded three-digit groups of the column and
row under a two-digit zoom; any other scheme is like xyz without the
flip.  Python 2 `/` on ints floors, which for the positive moduli used
here agrees with `Int.ediv`. -/
def tile_path (scheme : Option String) (format : Option String) (z x y : Int) : List String :=
  let fmt := format.getD ("png")
  if scheme == some ("xyz") then
    [pyStr z, pyStr x, pyStr (flip_y z y) ++ "." ++ fmt]
  else if scheme == some ("wms") then
    [pyFmtZ 2 z,
     pyFmtZ 3 (x / 1000000), pyFmtZ 3 (x / 1000 % 1000), pyFmtZ 3 (x % 1000),
     pyFmtZ 3 (y / 1000000), pyFmtZ 3 (y / 1000 % 1000),
     pyFmtZ 3 (y % 1000) ++ "." ++ fmt]
  else
    [pyStr z, pyStr x, pyStr y ++ "." ++ fmt]

/-- mbtiles_to_disk from the source, as the list of file writes it
performs (paths are segment lists under the target directory).
`os.mkdir` raises OSError when the target directory already exists, and
that happens before any write; otherwise metadata.json is written, then
layer.json when the metadata carries a formatter key, then every tiles
row's blob is written unchanged (no decompression) at its scheme path,
in table order. -/
def mbtiles_to_disk (metadata : List (String × String)) (tiles : List TileRow)
    (scheme format : Option String) (targetExists : Bool) :
    Except PyErr (List (List String × FileData)) :=
  if targetExists then .error .osError
  else
    let md := dictOf metadata
    let metaWrites := [([("metadata.json" : String)], FileData.jsonObj md)]
    let layerWrites :=
      match dictGet md ("formatter") with
      | some f => metaWrites ++ [([("layer.json" : String)], FileData.formatterObj f)]
      | none => metaWrites
    .ok (layerWrites ++ tiles.map (fun t =>
      (tile_path scheme format t.zoom_level t.tile_column t.tile_row, FileData.bytes t.tile_data)))

/-- The archive a connection sees: the two tables. -/
structure Archive where
  metadata : List (String × String)
  tiles : List TileRow

/-- mbtiles_metadata_to_disk from the source, statement by statement:
connect (no mutation), select name, value pairs from metadata and build
the dict, log its json dump.  The result is the archive it leaves
behind, the file writes it performs, and the dict it logs. -/
def mbtiles_metadata_to_disk (con : Archive) (_silent : Bool) :
    Archive × List (List String × FileData) × List (String × String) :=
  (con, [], dictOf con.metadata)

/-- The byte contents of the files a depth-d read_tiles walk reads: at
depth 0 every file entry of the directory, at positive depth everything
below each subdirectory. -/
def walkFiles : Nat → List (String × FSEntry) → List (List Nat)
  | 0, entries =>
    entries.foldr (fun p acc => match p.2 with | .file c => c :: acc | .dir _ => acc) []
  | depth + 1, entries =>
    (get_dirs entries).foldr (fun p acc => walkFiles depth p.2.entries ++ acc) []

/-- Whether a depth-d walk has, in some leaf directory it visits, an
entry whose name contains no dot. -/
def hasDotlessLeaf : Nat → List (String × FSEntry) → Bool
  | 0, entries => entries.any (fun p => (splitExt p.1).isNone)
  | depth + 1, entries => (get_dirs entries).any (fun p => hasDotlessLeaf depth p.2.entries)

/-! Lemmas about the import walk. -/

/-- A successful insert appends the row. -/
theorem insertTile_ok (tbl tbl' : List TileRow) (r : TileRow)
    (h : insertTile tbl r = .ok tbl') : tbl' = tbl ++ [r] := by
  unfold insertTile at h
  split at h
  · exact Except.noConfusion h
  · exact (Except.ok.inj h).symm

/-- A successful leaf pass keeps every earlier row and, for every entry
of the leaf directory, certifies a dotted file name with an integer stem
and membership of the corresponding inserted row. -/
theorem leafPass_ok (compress : List Nat → List Nat) (zoom base : Int) (fmt : Option String)
    (entries : List (String × FSEntry)) :
    ∀ (tbl tbl' : List TileRow),
      leafPass compress zoom base fmt entries tbl = .ok tbl' →
      (∀ x ∈ tbl, x ∈ tbl')
      ∧ (∀ p ∈ entries, ∃ fn ext c n, splitExt p.1 = some (fn, ext) ∧ p.2 = FSEntry.file c
            ∧ pyInt fn = some n ∧ mkTileRow zoom (base + n) (compress c) ∈ tbl') := by
  induction entries with
  | nil =>
    intro tbl tbl' h
    have heq : tbl = tbl' := by
      simpa [leafPass] using h
    subst heq
    exact ⟨fun x hx => hx, by simp⟩
  | cons q rest ih =>
    intro tbl tbl' h
    obtain ⟨name, entry⟩ := q
    simp only [leafPass] at h
    cases hsp : splitExt name with
    | none =>
      rw [hsp] at h
      exact Except.noConfusion h
    | some pr =>
      obtain ⟨fn, ext⟩ := pr
      rw [hsp] at h
      dsimp only at h
      cases entry with
      | dir es => exact Except.noConfusion h
      | file content =>
        cases hn : pyInt fn with
        | none =>
          rw [hn] at h
          exact Except.noConfusion h
        | some n =>
          rw [hn] at h
          dsimp only at h
          cases hins : insertTile tbl (mkTileRow zoom (base + n) (compress content)) with
          | error e =>
            rw [hins] at h
            exact Except.noConfusion h
          | ok tbl1 =>
            rw [hins] at h
            obtain ⟨mono, files⟩ := ih tbl1 tbl' h
            have happ := insertTile_ok tbl tbl1 _ hins
            subst happ
            refine ⟨fun x hx => mono x (by simp [hx]), fun p hp => ?_⟩
            rcases List.mem_cons.mp hp with hq | hp'
            · subst hq
              exact ⟨fn, ext, content, n, hsp, rfl, hn, mono _ (by simp)⟩
            · exact files p hp'

/-- Collecting the leaf files of a cons headed by a file. -/
theorem walkFiles_zero_cons_file (name : String) (cc : List Nat)
    (rest : List (String × FSEntry)) :
    walkFiles 0 ((name, FSEntry.file cc) :: rest) = cc :: walkFiles 0 rest := rfl

/-- Collecting the leaf files of a cons headed by a directory. -/
theorem walkFiles_zero_cons_dir (name : String) (es : List (String × FSEntry))
    (rest : List (String × FSEntry)) :
    walkFiles 0 ((name, FSEntry.dir es) :: rest) = walkFiles 0 rest := rfl

/-- A byte list is among the depth-0 files exactly when some file entry
carries it. -/
theorem walkFiles_zero_mem (entries : List (String × FSEntry)) (c : List Nat) :
    c ∈ walkFiles 0 entries ↔ ∃ name, (name, FSEntry.file c) ∈ entries := by
  induction entries with
  | nil => simp [walkFiles]
  | cons q rest ih =>
    obtain ⟨name, entry⟩ := q
    cases entry with
    | file cc =>
      rw [walkFiles_zero_cons_file]
      simp only [List.mem_cons, ih]
      constructor
      · rintro (rfl | ⟨nm, hnm⟩)
        · exact ⟨name, Or.inl rfl⟩
        · exact ⟨nm, Or.inr hnm⟩
      · rintro ⟨nm, hnm | hnm⟩
        · exact Or.inl (FSEntry.file.inj (congrArg Prod.snd hnm))
        · exact Or.inr ⟨nm, hnm⟩
    | dir es =>
      rw [walkFiles_zero_cons_dir]
      simp only [ih, List.mem_cons]
      constructor
      · rintro ⟨nm, hnm⟩
        exact ⟨nm, Or.inr hnm⟩
      · rintro ⟨nm, hnm | hnm⟩
        · exact absurd (congrArg Prod.snd hnm) (by simp)
        · exact ⟨nm, hnm⟩

/-- Membership in a foldr of appended blocks. -/
theorem mem_foldr_append {α β : Type} (f : α → List β) (l : List α) (b : β) :
    b ∈ l.foldr (fun p acc => f p ++ acc) [] ↔ ∃ p ∈ l, b ∈ f p := by
  induction l with
  | nil => simp
  | cons q rest ih =>
    simp only [List.foldr_cons, List.mem_append, ih, List.mem_cons]
    constructor
    · rintro (hb | ⟨p, hp, hb⟩)
      · exact ⟨q, Or.inl rfl, hb⟩
      · exact ⟨p, Or.inr hp, hb⟩
    · rintro ⟨p, rfl | hp, hb⟩
      · exact Or.inl hb
      · exact Or.inr ⟨p, hp, hb⟩

/-- A byte list is among the depth d + 1 files exactly when it is below
one of the subdirectories. -/
theorem walkFiles_succ_mem (d : Nat) (entries : List (String × FSEntry)) (c : List Nat) :
    c ∈ walkFiles (d + 1) entries ↔ ∃ p ∈ get_dirs entries, c ∈ walkFiles d p.2.entries := by
  have h := mem_foldr_append (fun p : String × FSEntry => walkFiles d p.2.entries)
    (get_dirs entries) c
  exact h

/-- A successful directory pass keeps every earlier row and, for every
listed subdirectory, certifies an integer name and a successful
recursive call whose result rows survive into the final table. -/
theorem dirPass_ok (recur : Int → List (String × FSEntry) → List TileRow → Except PyErr (List TileRow))
    (depth : Nat)
    (l : List (String × FSEntry)) :
    ∀ (base : Int) (tbl tbl' : List TileRow),
      dirPass recur depth base l tbl = .ok tbl' →
      (∀ b es t t', recur b es t = .ok t' → ∀ x ∈ t, x ∈ t') →
      (∀ x ∈ tbl, x ∈ tbl')
      ∧ (∀ p ∈ l, ∃ idx, pyInt p.1 = some idx
          ∧ ∃ t₁ t₂, recur (base + idx * 10 ^ (depth * 3)) p.2.entries t₁ = .ok t₂
              ∧ ∀ x ∈ t₂, x ∈ tbl') := by
  induction l with
  | nil =>
    intro base tbl tbl' h _
    have heq : tbl = tbl' := by
      simpa [dirPass] using h
    subst heq
    exact ⟨fun x hx => hx, by simp⟩
  | cons q rest ih =>
    intro base tbl tbl' h Hmono
    obtain ⟨name, entry⟩ := q
    simp only [dirPass] at h
    cases hidx : pyInt name with
    | none =>
      rw [hidx] at h
      exact Except.noConfusion h
    | some idx =>
      rw [hidx] at h
      dsimp only at h
      cases hrec : recur (base + idx * 10 ^ (depth * 3)) entry.entries tbl with
      | error e =>
        rw [hrec] at h
        exact Except.noConfusion h
      | ok tbl1 =>
        rw [hrec] at h
        obtain ⟨mono1, rest1⟩ := ih base tbl1 tbl' h Hmono
        refine ⟨fun x hx => mono1 x (Hmono _ _ _ _ hrec x hx), fun p hp => ?_⟩
        rcases List.mem_cons.mp hp with hq | hp'
        · subst hq
          exact ⟨idx, hidx, tbl, tbl1, hrec, fun x hx => mono1 x hx⟩
        · exact rest1 p hp'

/-- A successful read_tiles walk keeps every earlier row and inserts,
for every file it reads, a row at the walk's zoom carrying the
compressed bytes. -/
theorem read_tiles_ok (compress : List Nat → List Nat) (zoom : Int) (fmt : Option String) :
    ∀ (d : Nat) (base : Int) (entries : List (String × FSEntry)) (tbl tbl' : List TileRow),
      read_tiles compress zoom fmt d base entries tbl = .ok tbl' →
      (∀ x ∈ tbl, x ∈ tbl')
      ∧ (∀ c ∈ walkFiles d entries, ∃ col row, TileRow.mk zoom col row (compress c) ∈ tbl') := by
  intro d
  induction d with
  | zero =>
    intro base entries tbl tbl' h
    obtain ⟨mono, files⟩ := leafPass_ok compress zoom base fmt entries tbl tbl' h
    refine ⟨mono, fun c hc => ?_⟩
    obtain ⟨name, hname⟩ := (walkFiles_zero_mem entries c).mp hc
    obtain ⟨fn, ext, c', n, _, hfile, _, hmem⟩ := files (name, FSEntry.file c) hname
    have hcc : c = c' := FSEntry.file.inj hfile
    subst hcc
    exact ⟨(base + n) % n_columns zoom, pyRound (base + n) (n_columns zoom), hmem⟩
  | succ d ihd =>
    intro base entries tbl tbl' h
    have Hmono : ∀ b es t t',
        read_tiles compress zoom fmt d b es t = .ok t' → ∀ x ∈ t, x ∈ t' :=
      fun b es t t' hk => (ihd b es t t' hk).1
    have h' : dirPass (fun b es t => read_tiles compress zoom fmt d b es t)
        (d + 1) base (get_dirs entries) tbl = .ok tbl' := h
    obtain ⟨mono, dirs⟩ := dirPass_ok _ (d + 1) (get_dirs entries) base tbl tbl' h' Hmono
    refine ⟨mono, fun c hc => ?_⟩
    obtain ⟨p, hp, hcp⟩ := (walkFiles_succ_mem d entries c).mp hc
    obtain ⟨idx, _, t₁, t₂, hrec, hsub⟩ := dirs p hp
    obtain ⟨col, row, hmem⟩ := (ihd _ _ t₁ t₂ hrec).2 c hcp
    exact ⟨col, row, hsub _ hmem⟩

/-- A successful zoom pass keeps every earlier row and, for every listed
entry whose name parses to zoom z, records a row (at that zoom, with the
compressed bytes) for every file below it at the zoom's walk depth. -/
theorem zoomPass_ok (compress : List Nat → List Nat) (fmt : Option String)
    (l : List (String × FSEntry)) :
    ∀ (tbl tbl' : List TileRow),
      zoomPass compress fmt l tbl = .ok tbl' →
      (∀ x ∈ tbl, x ∈ tbl')
      ∧ (∀ p ∈ l, ∀ z : Int, pyInt p.1 = some z →
          ∀ c ∈ walkFiles (if 2 ≤ z then 2 else 1) p.2.entries,
            ∃ col row, TileRow.mk z col row (compress c) ∈ tbl') := by
  induction l with
  | nil =>
    intro tbl tbl' h
    have heq : tbl = tbl' := by
      simpa [zoomPass] using h
    subst heq
    exact ⟨fun x hx => hx, by simp⟩
  | cons q rest ih =>
    intro tbl tbl' h
    obtain ⟨name, entry⟩ := q
    simp only [zoomPass] at h
    cases hz0 : pyInt name with
    | none =>
      rw [hz0] at h
      exact Except.noConfusion h
    | some z0 =>
      rw [hz0] at h
      dsimp only at h
      cases hrt : read_tiles compress z0 fmt (if 2 ≤ z0 then 2 else 1) 0 entry.entries tbl with
      | error e =>
        rw [hrt] at h
        exact Except.noConfusion h
      | ok tbl1 =>
        rw [hrt] at h
        obtain ⟨mono1, rest1⟩ := ih tbl1 tbl' h
        have hrtf := read_tiles_ok compress z0 fmt (if 2 ≤ z0 then 2 else 1) 0
          entry.entries tbl tbl1 hrt
        refine ⟨fun x hx => mono1 x (hrtf.1 x hx), fun p hp z hz => ?_⟩
        rcases List.mem_cons.mp hp with hq | hp'
        · subst hq
          rw [hz0] at hz
          have hzz : z0 = z := Option.some.inj hz
          subst hzz
          intro c hc
          obtain ⟨col, row, hmem⟩ := hrtf.2 c hc
          exact ⟨col, row, mono1 _ hmem⟩
        · exact rest1 p hp' z hz

/-- A successful import's tiles are those of a successful zoom walk over
the root's subdirectories (with the image format depending on whether
metadata.json was found — the format is irrelevant to the rows since the
extension check in the source is a no-op). -/
theorem disk_to_mbtiles_ok (compress : List Nat → List Nat)
    (pj : List Nat → Except PyErr (List (String × String)))
    (root : List (String × FSEntry)) (fmt : Option String)
    (md : List (String × String)) (tiles : List TileRow)
    (h : disk_to_mbtiles compress pj root fmt = .ok (md, tiles)) :
    ∃ ifmt, zoomPass compress ifmt (get_dirs root) [] = .ok tiles := by
  unfold disk_to_mbtiles at h
  dsimp only at h
  cases hf : findFile root ("metadata.json") with
  | none =>
    rw [hf] at h
    dsimp only at h
    cases hzp : zoomPass compress (some (fmt.getD ("gph"))) (get_dirs root) [] with
    | error e =>
      rw [hzp] at h
      exact Except.noConfusion h
    | ok tbl =>
      rw [hzp] at h
      dsimp only at h
      have hinj := Except.ok.inj h
      have ht : tbl = tiles := congrArg Prod.snd hinj
      exact ⟨some (fmt.getD ("gph")), ht ▸ hzp⟩
  | some content =>
    rw [hf] at h
    dsimp only at h
    cases hpj : pj content with
    | error e =>
      rw [hpj] at h
      exact Except.noConfusion h
    | ok pairs =>
      rw [hpj] at h
      dsimp only at h
      cases hzp : zoomPass compress fmt (get_dirs root) [] with
      | error e =>
        rw [hzp] at h
        exact Except.noConfusion h
      | ok tbl =>
        rw [hzp] at h
        dsimp only at h
        have hinj := Except.ok.inj h
        have ht : tbl = tiles := congrArg Prod.snd hinj
        exact ⟨fmt, ht ▸ hzp⟩

/-- A successful export (fresh target directory) writes every tiles row's
blob unchanged at its scheme path. -/
theorem mbtiles_to_disk_writes (metadata : List (String × String)) (tiles : List TileRow)
    (scheme format : Option String) (ws : List (List String × FileData))
    (h : mbtiles_to_disk metadata tiles scheme format false = .ok ws) :
    ∀ t ∈ tiles, (tile_path scheme format t.zoom_level t.tile_column t.tile_row,
        FileData.bytes t.tile_data) ∈ ws := by
  unfold mbtiles_to_disk at h
  rw [if_neg Bool.false_ne_true] at h
  dsimp only at h
  cases hg : dictGet (dictOf metadata) ("formatter") with
  | none =>
    rw [hg] at h
    dsimp only at h
    have hw := Except.ok.inj h
    subst hw
    intro t ht
    exact List.mem_append_right _ (List.mem_map_of_mem _ ht)
  | some f =>
    rw [hg] at h
    dsimp only at h
    have hw := Except.ok.inj h
    subst hw
    intro t ht
    exact List.mem_append_right _ (List.mem_map_of_mem _ ht)

/-! Bridge lemmas: the integer implementations of the source's float
arithmetic agree with the exact rational semantics. -/

/-- Floor of an exact integer quotient is integer (euclidean) division,
for a positive divisor. -/
theorem floor_int_div (p q : Int) (hq : 0 < q) : ⌊(p : ℚ) / (q : ℚ)⌋ = p / q := by
  have h1 : ((q.toNat : ℕ) : ℚ) = (q : ℚ) := by
    rw [← Int.cast_natCast, Int.toNat_of_nonneg hq.le]
  have h2 := Rat.floor_intCast_div_natCast p q.toNat
  rw [h1] at h2
  rw [h2, Int.toNat_of_nonneg hq.le]

/-- Adding a half before flooring an integer quotient. -/
theorem floor_div_add_half (p q : Int) (hq : 0 < q) :
    ⌊(p : ℚ) / (q : ℚ) + 1 / 2⌋ = (2 * p + q) / (2 * q) := by
  have hq' : ((q : ℚ)) ≠ 0 := by
    exact_mod_cast hq.ne'
  have h : (p : ℚ) / (q : ℚ) + 1 / 2 = ((2 * p + q : Int) : ℚ) / ((2 * q : Int) : ℚ) := by
    push_cast
    field_simp
    ring
  rw [h, floor_int_div (2 * p + q) (2 * q) (by omega)]

/-- pyRound agrees with the rational specification of Python round on
every exact quotient with a positive denominator. -/
theorem pyRound_eq_roundQ (a b : Int) (hb : 0 < b) :
    pyRound a b = pyRoundQ ((a : ℚ) / (b : ℚ)) := by
  have hbq : (0 : ℚ) < (b : ℚ) := by exact_mod_cast hb
  unfold pyRound pyRoundQ
  by_cases ha : 0 ≤ a
  · have haq : (0 : ℚ) ≤ (a : ℚ) / (b : ℚ) :=
      div_nonneg (by exact_mod_cast ha) hbq.le
    rw [if_pos ha, if_pos haq, floor_div_add_half a b hb]
  · have ha' : a < 0 := by omega
    have haq : ¬ (0 : ℚ) ≤ (a : ℚ) / (b : ℚ) := by
      rw [not_le]
      exact div_neg_of_neg_of_pos (by exact_mod_cast ha') hbq
    have hneg : -((a : ℚ) / (b : ℚ)) = ((-a : Int) : ℚ) / (b : ℚ) := by
      push_cast
      ring
    rw [if_neg ha, if_neg haq, hneg, floor_div_add_half (-a) b hb]

/-- n_columns is the rational ceiling the source computes:
ceil((180 - (-180)) / tile_size). -/
theorem n_columns_eq_ceil (z : Int) :
    n_columns z = ⌈((180 : ℚ) - (-180)) / tile_size z⌉ := by
  unfold n_columns tile_size
  by_cases h1 : z = 1
  · have : ((180 : ℚ) - (-180)) / 1 = ((360 : Int) : ℚ) := by norm_num
    rw [if_pos h1, if_pos h1, this, Int.ceil_intCast]
  · by_cases h2 : z = 2
    · have : ((180 : ℚ) - (-180)) / (1 / 4) = ((1440 : Int) : ℚ) := by norm_num
      rw [if_neg h1, if_pos h2, if_neg h1, if_pos h2, this, Int.ceil_intCast]
    · have : ((180 : ℚ) - (-180)) / 4 = ((90 : Int) : ℚ) := by norm_num
      rw [if_neg h1, if_neg h2, if_neg h1, if_neg h2, this, Int.ceil_intCast]

/-- C1: round-trip through the archive.  For every file of a well-formed
input tree that a successful import reads (a file with content c below
the zoom directory p, whose name parses to zoom z at the source's walk
depth for z), a successful xyz export of that archive into a fresh
target directory writes some output file at path z/x/y.format whose
bytes are exactly the compressed (gzip level 6, modelled by `compress`)
bytes of the original input file — the stored blob is passed through
without decompression.  (0 ≤ z marks the model's validity domain: a
negative zoom level would make the source's 2**zoom a float.) -/
theorem xyz_roundtrip_exports_compressed_input (compress : List Nat → List Nat)
    (pj : List Nat → Except PyErr (List (String × String)))
    (root : List (String × FSEntry)) (fmtI fmtE : Option String)
    (md : List (String × String)) (tiles : List TileRow)
    (ws : List (List String × FileData))
    (p : String × FSEntry) (z : Int) (c : List Nat)
    (himp : disk_to_mbtiles compress pj root fmtI = .ok (md, tiles))
    (hexp : mbtiles_to_disk md tiles (some ("xyz")) fmtE false = .ok ws)
    (hp : p ∈ get_dirs root) (hz : pyInt p.1 = some z) (hz0 : 0 ≤ z)
    (hc : c ∈ walkFiles (if 2 ≤ z then 2 else 1) p.2.entries) :
    ∃ x y : Int, ([pyStr z, pyStr x, pyStr y ++ "." ++ fmtE.getD ("png")],
        FileData.bytes (compress c)) ∈ ws := by
  obtain ⟨ifmt, hzp⟩ := disk_to_mbtiles_ok compress pj root fmtI md tiles himp
  obtain ⟨col, row, hmem⟩ :=
    (zoomPass_ok compress ifmt (get_dirs root) [] tiles hzp).2 p hp z hz c hc
  have hw := mbtiles_to_disk_writes md tiles (some ("xyz")) fmtE ws hexp
    (TileRow.mk z col row (compress c)) hmem
  exact ⟨col, flip_y z row, hw⟩

/-- Witness for C1 on the tree 0/3/7.png with content bytes 1, 2, 3 and
the identity as the compression function: the exported writes contain
the file at segments 0, 37, -33.png carrying those bytes. -/
theorem xyz_roundtrip_exports_compressed_input_witness :
    ∃ x y : Int, ([pyStr 0, pyStr x, pyStr y ++ "." ++ ("png" : String)],
        FileData.bytes [1, 2, 3]) ∈
      [([("metadata.json" : String)], FileData.jsonObj []),
       ([("0" : String), ("37" : String), ("-33.png" : String)], FileData.bytes [1, 2, 3])] :=
  xyz_roundtrip_exports_compressed_input id (fun _ => .error .valueError)
    [(("0" : String), .dir [(("3" : String), .dir [(("7.png" : String), .file [1, 2, 3])])])]
    (some ("png")) (some ("png")) [] [TileRow.mk 0 37 33 [1, 2, 3]]
    [([("metadata.json" : String)], FileData.jsonObj []),
     ([("0" : String), ("37" : String), ("-33.png" : String)], FileData.bytes [1, 2, 3])]
    (("0" : String), FSEntry.dir [(("3" : String), .dir [(("7.png" : String), .file [1, 2, 3])])])
    0 [1, 2, 3]
    rfl rfl (List.Mem.head _) rfl (by decide) (List.Mem.head _)

/-- C3: for every leaf file a successful import processes at zoom z with
synthesized tile id t = base + int(stem), the inserted row satisfies
tile_row = round(t / n_columns) and tile_column = t mod n_columns
(pyRound is proved equal to the rational rounding specification), where
n_columns = ceil(360 / tile_size) and the tile_size table gives
n_columns 90 at zoom 0, 360 at zoom 1, 1440 at zoom 2, and — since no
branch covers zoom ≥ 3 — falls through to the zoom-0 default tile_size 4,
n_columns 90, for every such zoom. -/
theorem import_row_col_formulas :
    (∀ (compress : List Nat → List Nat) (zoom base : Int) (fmt : Option String)
        (entries : List (String × FSEntry)) (tbl tbl' : List TileRow)
        (name fn ext : String) (c : List Nat) (n : Int),
        leafPass compress zoom base fmt entries tbl = .ok tbl' →
        (name, FSEntry.file c) ∈ entries →
        splitExt name = some (fn, ext) →
        pyInt fn = some n →
        TileRow.mk zoom ((base + n) % n_columns zoom) (pyRound (base + n) (n_columns zoom))
          (compress c) ∈ tbl')
    ∧ (∀ a b : Int, 0 < b → pyRound a b = pyRoundQ ((a : ℚ) / (b : ℚ)))
    ∧ (∀ z : Int, n_columns z = ⌈((180 : ℚ) - (-180)) / tile_size z⌉)
    ∧ n_columns 0 = 90 ∧ n_columns 1 = 360 ∧ n_columns 2 = 1440
    ∧ (∀ z : Int, 3 ≤ z → tile_size z = 4 ∧ n_columns z = 90) := by
  refine ⟨?_, pyRound_eq_roundQ, n_columns_eq_ceil, rfl, rfl, rfl, ?_⟩
  · intro compress zoom base fmt entries tbl tbl' name fn ext c n hok hmem hsp hn
    obtain ⟨_, files⟩ := leafPass_ok compress zoom base fmt entries tbl tbl' hok
    obtain ⟨fn', ext', c', n', hsp', hfile, hn', hrow⟩ := files (name, FSEntry.file c) hmem
    have hcc : c = c' := FSEntry.file.inj hfile
    subst hcc
    rw [hsp] at hsp'
    have hpair := Option.some.inj hsp'
    have hfn : fn = fn' := congrArg Prod.fst hpair
    rw [← hfn, hn] at hn'
    have hnn : n = n' := Option.some.inj hn'
    subst hnn
    exact hrow
  · intro z hz
    have h1 : z ≠ 1 := by omega
    have h2 : z ≠ 2 := by omega
    unfold tile_size n_columns
    rw [if_neg h1, if_neg h2, if_neg h1, if_neg h2]
    exact ⟨rfl, rfl⟩

/-- Witness for C3: the leaf file 7.png at zoom 0 with base id 3000
yields tile id 3007, column 3007 mod 90 = 37 and row round(3007 / 90)
= 33; and pyRound agrees with the rational rounding at 3007 / 90. -/
theorem import_row_col_formulas_witness :
    TileRow.mk 0 37 33 [1, 2, 3] ∈ [TileRow.mk 0 37 33 [1, 2, 3]]
    ∧ pyRound 3007 90 = pyRoundQ ((3007 : ℚ) / (90 : ℚ)) := by
  constructor
  · exact import_row_col_formulas.1 id 0 3000 (some ("png"))
      [(("7.png" : String), .file [1, 2, 3])] [] [TileRow.mk 0 37 33 [1, 2, 3]]
      ("7.png") ("7") ("png") [1, 2, 3] 7 rfl (List.Mem.head _) rfl rfl
  · exact import_row_col_formulas.2.1 3007 90 (by decide)

/-- Opening metadata.json in a root whose only entry is a directory
raises IOError regardless of the directory's name, so the lookup yields
none. -/
theorem findFile_singleton_dir (s name : String) (es : List (String × FSEntry)) :
    findFile [(s, FSEntry.dir es)] name = none := by
  unfold findFile
  cases hq : s == name with
  | true => rw [List.find?_cons_of_pos _ (by simpa using hq)]
  | false => rw [List.find?_cons_of_neg _ (by simpa using hq), List.find?_nil]

/-- Evaluating the leaf pass on a single well-formed file. -/
theorem leafPass_singleton (compress : List Nat → List Nat) (zoom base : Int)
    (fmt : Option String) (fname fn ext : String) (c : List Nat) (n : Int)
    (hsp : splitExt fname = some (fn, ext)) (hn : pyInt fn = some n) :
    leafPass compress zoom base fmt [(fname, FSEntry.file c)] []
      = .ok [mkTileRow zoom (base + n) (compress c)] := by
  simp [leafPass, hsp, hn, insertTile]

/-- One depth level of read_tiles over a single integer-named
subdirectory adds idx * 10 ^ (depth * 3) to the base tile id. -/
theorem read_tiles_succ_singleton (compress : List Nat → List Nat) (zoom : Int)
    (fmt : Option String) (d : Nat) (base idx : Int) (s : String)
    (es : List (String × FSEntry)) (tbl : List TileRow) (hidx : pyInt s = some idx) :
    read_tiles compress zoom fmt (d + 1) base [(s, FSEntry.dir es)] tbl
      = read_tiles compress zoom fmt d (base + idx * 10 ^ ((d + 1) * 3)) es tbl := by
  have hstep : read_tiles compress zoom fmt (d + 1) base [(s, FSEntry.dir es)] tbl
      = dirPass (fun b es' t => read_tiles compress zoom fmt d b es' t) (d + 1) base
          [(s, FSEntry.dir es)] tbl := rfl
  rw [hstep]
  simp only [dirPass, hidx]
  rw [show (FSEntry.dir es).entries = es from rfl]
  cases hres : read_tiles compress zoom fmt d (base + idx * 10 ^ ((d + 1) * 3)) es tbl with
  | error e => rfl
  | ok tbl1 => rfl

/-- Evaluating a depth-2 walk over the chain s₁, s₂, fname: the tile id
is v₁ * 1000 ^ 2 + v₂ * 1000 + n. -/
theorem read_tiles_two_levels (compress : List Nat → List Nat) (zoom : Int)
    (fmt : Option String) (s₁ s₂ fname fn ext : String) (v₁ v₂ n : Int) (c : List Nat)
    (h1 : pyInt s₁ = some v₁) (h2 : pyInt s₂ = some v₂)
    (hsp : splitExt fname = some (fn, ext)) (hn : pyInt fn = some n) :
    read_tiles compress zoom fmt 2 0
      [(s₁, FSEntry.dir [(s₂, FSEntry.dir [(fname, FSEntry.file c)])])] []
      = .ok [mkTileRow zoom (v₁ * 1000000 + v₂ * 1000 + n) (compress c)] := by
  rw [show (2 : Nat) = 1 + 1 from rfl]
  rw [read_tiles_succ_singleton compress zoom fmt 1 0 v₁ s₁ _ [] h1]
  rw [read_tiles_succ_singleton compress zoom fmt 0 _ v₂ s₂ _ [] h2]
  have hleaf : read_tiles compress zoom fmt 0
      (0 + v₁ * 10 ^ ((1 + 1) * 3) + v₂ * 10 ^ ((0 + 1) * 3))
      [(fname, FSEntry.file c)] []
      = leafPass compress zoom (0 + v₁ * 10 ^ ((1 + 1) * 3) + v₂ * 10 ^ ((0 + 1) * 3)) fmt
          [(fname, FSEntry.file c)] [] := rfl
  rw [hleaf, leafPass_singleton compress zoom _ fmt fname fn ext c n hsp hn]
  have harith : 0 + v₁ * 10 ^ ((1 + 1) * 3) + v₂ * 10 ^ ((0 + 1) * 3) + n
      = v₁ * 1000000 + v₂ * 1000 + n := by
    norm_num
  rw [harith]

/-- Evaluating a depth-1 walk over the chain s₁, fname: the tile id is
v₁ * 1000 + n. -/
theorem read_tiles_one_level (compress : List Nat → List Nat) (zoom : Int)
    (fmt : Option String) (s₁ fname fn ext : String) (v₁ n : Int) (c : List Nat)
    (h1 : pyInt s₁ = some v₁)
    (hsp : splitExt fname = some (fn, ext)) (hn : pyInt fn = some n) :
    read_tiles compress zoom fmt 1 0 [(s₁, FSEntry.dir [(fname, FSEntry.file c)])] []
      = .ok [mkTileRow zoom (v₁ * 1000 + n) (compress c)] := by
  rw [show (1 : Nat) = 0 + 1 from rfl]
  rw [read_tiles_succ_singleton compress zoom fmt 0 0 v₁ s₁ _ [] h1]
  have hleaf : read_tiles compress zoom fmt 0 (0 + v₁ * 10 ^ ((0 + 1) * 3))
      [(fname, FSEntry.file c)] []
      = leafPass compress zoom (0 + v₁ * 10 ^ ((0 + 1) * 3)) fmt
          [(fname, FSEntry.file c)] [] := rfl
  rw [hleaf, leafPass_singleton compress zoom _ fmt fname fn ext c n hsp hn]
  have harith : 0 + v₁ * 10 ^ ((0 + 1) * 3) + n = v₁ * 1000 + n := by
    norm_num
  rw [harith]

/-- The zoom pass over a single entry whose name parses to z runs one
read_tiles walk at the depth the source selects for z. -/
theorem zoomPass_singleton (compress : List Nat → List Nat) (fmt : Option String)
    (zs : String) (e : FSEntry) (z : Int) (tbl : List TileRow)
    (hz : pyInt zs = some z) :
    zoomPass compress fmt [(zs, e)] tbl
      = read_tiles compress z fmt (if 2 ≤ z then 2 else 1) 0 e.entries tbl := by
  simp only [zoomPass, hz]
  cases hres : read_tiles compress z fmt (if 2 ≤ z then 2 else 1) 0 e.entries tbl with
  | error er => rfl
  | ok tbl1 => rfl

/-- C4: the importer walks a zoom directory z at nesting depth 2 when
z ≥ 2 and at depth 1 otherwise, and each integer-named subdirectory at
depth d > 0 contributes its value times 1000 ^ d to the accumulating
base tile id; the final tile id is the accumulated base plus the integer
parsed from the leaf file's stem. -/
theorem import_depth_and_tile_id_accumulation (compress : List Nat → List Nat)
    (pj : List Nat → Except PyErr (List (String × String))) (fmt : Option String)
    (zs s₁ s₂ fname fn ext : String) (z v₁ v₂ n : Int) (c : List Nat)
    (hz : pyInt zs = some z) (h1 : pyInt s₁ = some v₁) (h2 : pyInt s₂ = some v₂)
    (hsp : splitExt fname = some (fn, ext)) (hn : pyInt fn = some n) :
    (2 ≤ z → disk_to_mbtiles compress pj
        [(zs, FSEntry.dir [(s₁, FSEntry.dir [(s₂, FSEntry.dir [(fname, FSEntry.file c)])])])] fmt
      = .ok ([], [mkTileRow z (v₁ * 1000000 + v₂ * 1000 + n) (compress c)]))
    ∧ (z < 2 → disk_to_mbtiles compress pj
        [(zs, FSEntry.dir [(s₁, FSEntry.dir [(fname, FSEntry.file c)])])] fmt
      = .ok ([], [mkTileRow z (v₁ * 1000 + n) (compress c)])) := by
  constructor
  · intro h2z
    unfold disk_to_mbtiles
    rw [findFile_singleton_dir]
    dsimp only
    rw [show get_dirs [(zs, FSEntry.dir [(s₁, FSEntry.dir [(s₂, FSEntry.dir
          [(fname, FSEntry.file c)])])])]
        = [(zs, FSEntry.dir [(s₁, FSEntry.dir [(s₂, FSEntry.dir
          [(fname, FSEntry.file c)])])])] from rfl]
    rw [zoomPass_singleton compress _ zs _ z [] hz]
    rw [if_pos h2z]
    rw [show (FSEntry.dir [(s₁, FSEntry.dir [(s₂, FSEntry.dir
          [(fname, FSEntry.file c)])])]).entries
        = [(s₁, FSEntry.dir [(s₂, FSEntry.dir [(fname, FSEntry.file c)])])] from rfl]
    rw [read_tiles_two_levels compress z _ s₁ s₂ fname fn ext v₁ v₂ n c h1 h2 hsp hn]
  · intro hlt
    have h2z : ¬ 2 ≤ z := by omega
    unfold disk_to_mbtiles
    rw [findFile_singleton_dir]
    dsimp only
    rw [show get_dirs [(zs, FSEntry.dir [(s₁, FSEntry.dir [(fname, FSEntry.file c)])])]
        = [(zs, FSEntry.dir [(s₁, FSEntry.dir [(fname, FSEntry.file c)])])] from rfl]
    rw [zoomPass_singleton compress _ zs _ z [] hz]
    rw [if_neg h2z]
    rw [show (FSEntry.dir [(s₁, FSEntry.dir [(fname, FSEntry.file c)])]).entries
        = [(s₁, FSEntry.dir [(fname, FSEntry.file c)])] from rfl]
    rw [read_tiles_one_level compress z _ s₁ fname fn ext v₁ n c h1 hsp hn]

/-- Witness for C4: importing 5/1/2/7.png (zoom 5, walked at depth 2)
gives tile id 1 * 1000000 + 2 * 1000 + 7 = 1002007, and importing
0/3/7.png (zoom 0, walked at depth 1) gives tile id 3 * 1000 + 7
= 3007. -/
theorem import_depth_and_tile_id_accumulation_witness :
    (disk_to_mbtiles id (fun _ => .error .valueError)
        [(("5" : String), FSEntry.dir [(("1" : String), FSEntry.dir [(("2" : String),
          FSEntry.dir [(("7.png" : String), FSEntry.file [4, 2])])])])] (some ("png"))
      = .ok ([], [mkTileRow 5 1002007 [4, 2]]))
    ∧ (disk_to_mbtiles id (fun _ => .error .valueError)
        [(("0" : String), FSEntry.dir [(("3" : String), FSEntry.dir
          [(("7.png" : String), FSEntry.file [1, 2, 3])])])] (some ("png"))
      = .ok ([], [mkTileRow 0 3007 [1, 2, 3]])) := by
  constructor
  · exact (import_depth_and_tile_id_accumulation id (fun _ => .error .valueError)
      (some ("png")) ("5") ("1") ("2") ("7.png") ("7") ("png") 5 1 2 7 [4, 2]
      rfl rfl rfl rfl rfl).1 (by decide)
  · exact (import_depth_and_tile_id_accumulation id (fun _ => .error .valueError)
      (some ("png")) ("0") ("3") ("2") ("7.png") ("7") ("png") 0 3 2 7 [1, 2, 3]
      rfl rfl rfl rfl rfl).2 (by decide)

/-- C8: when metadata.json is absent from the import source directory,
the import is exactly the tile walk with empty metadata: it succeeds
whenever the walk does, the metadata table is left empty, and the tiles
are imported normally (the IOError from the missing file is caught; only
a warning is logged in non-silent mode, which the model does not
track). -/
theorem import_missing_metadata_nonfatal (compress : List Nat → List Nat)
    (pj : List Nat → Except PyErr (List (String × String)))
    (root : List (String × FSEntry)) (fmt : Option String)
    (h : findFile root ("metadata.json") = none) :
    disk_to_mbtiles compress pj root fmt
      = Except.map (fun tbl => (([] : List (String × String)), tbl))
          (zoomPass compress (some (fmt.getD ("gph"))) (get_dirs root) []) := by
  unfold disk_to_mbtiles
  rw [h]
  dsimp only
  cases hzp : zoomPass compress (some (fmt.getD ("gph"))) (get_dirs root) [] with
  | error e => rfl
  | ok tbl => rfl

/-- Witness for C8 on a tree without metadata.json. -/
theorem import_missing_metadata_nonfatal_witness :
    disk_to_mbtiles id (fun _ => .error .valueError)
      [(("0" : String), FSEntry.dir [(("3" : String), FSEntry.dir
        [(("7.png" : String), FSEntry.file [1, 2, 3])])])] (some ("png"))
      = Except.map (fun tbl => (([] : List (String × String)), tbl))
          (zoomPass id (some ("png"))
            (get_dirs [(("0" : String), FSEntry.dir [(("3" : String), FSEntry.dir
              [(("7.png" : String), FSEntry.file [1, 2, 3])])])]) []) :=
  import_missing_metadata_nonfatal id (fun _ => .error .valueError)
    [(("0" : String), FSEntry.dir [(("3" : String), FSEntry.dir
      [(("7.png" : String), FSEntry.file [1, 2, 3])])])] (some ("png")) rfl

/-- A leaf directory containing an entry whose name has no dot makes the
leaf pass fail, whatever the base id and table state. -/
theorem leafPass_err (compress : List Nat → List Nat) (zoom : Int) (fmt : Option String)
    (entries : List (String × FSEntry)) :
    entries.any (fun p => (splitExt p.1).isNone) = true →
    ∀ (base : Int) (tbl : List TileRow),
      ∃ e, leafPass compress zoom base fmt entries tbl = .error e := by
  induction entries with
  | nil =>
    intro hdl
    simp at hdl
  | cons q rest ih =>
    intro hdl base tbl
    obtain ⟨name, entry⟩ := q
    cases hsp : splitExt name with
    | none => exact ⟨.valueError, by simp [leafPass, hsp]⟩
    | some pr =>
      obtain ⟨fn, ext⟩ := pr
      have hrest : rest.any (fun p => (splitExt p.1).isNone) = true := by
        simpa [List.any_cons, hsp] using hdl
      cases entry with
      | dir es => exact ⟨.ioError, by simp [leafPass, hsp]⟩
      | file content =>
        cases hn : pyInt fn with
        | none => exact ⟨.valueError, by simp [leafPass, hsp, hn]⟩
        | some n =>
          cases hins : insertTile tbl (mkTileRow zoom (base + n) (compress content)) with
          | error e => exact ⟨e, by simp [leafPass, hsp, hn, hins]⟩
          | ok tbl1 =>
            obtain ⟨e, he⟩ := ih hrest base tbl1
            exact ⟨e, by simp [leafPass, hsp, hn, hins, he]⟩

/-- If one listed subdirectory's recursive call always fails, the
directory pass fails. -/
theorem dirPass_err
    (recur : Int → List (String × FSEntry) → List TileRow → Except PyErr (List TileRow))
    (depth : Nat) (l : List (String × FSEntry)) :
    ∀ p : String × FSEntry, p ∈ l →
    (∀ b tbl, ∃ e, recur b p.2.entries tbl = .error e) →
    ∀ (base : Int) (tbl : List TileRow), ∃ e, dirPass recur depth base l tbl = .error e := by
  induction l with
  | nil =>
    intro p hp _ _ _
    exact absurd hp (List.not_mem_nil p)
  | cons q rest ih =>
    intro p hp herr base tbl
    obtain ⟨name, entry⟩ := q
    rcases List.mem_cons.mp hp with hq | hp'
    · subst hq
      dsimp only at herr
      cases hidx : pyInt name with
      | none => exact ⟨.valueError, by simp [dirPass, hidx]⟩
      | some idx =>
        obtain ⟨e, he⟩ := herr (base + idx * 10 ^ (depth * 3)) tbl
        exact ⟨e, by simp [dirPass, hidx, he]⟩
    · cases hidx : pyInt name with
      | none => exact ⟨.valueError, by simp [dirPass, hidx]⟩
      | some idx =>
        cases hrec : recur (base + idx * 10 ^ (depth * 3)) entry.entries tbl with
        | error e => exact ⟨e, by simp [dirPass, hidx, hrec]⟩
        | ok tbl1 =>
          obtain ⟨e, he⟩ := ih p hp' herr base tbl1
          exact ⟨e, by simp [dirPass, hidx, hrec, he]⟩

/-- A walk whose reachable leaves contain a dotless name fails, whatever
the base id and table state. -/
theorem read_tiles_err (compress : List Nat → List Nat) (zoom : Int) (fmt : Option String) :
    ∀ (d : Nat) (entries : List (String × FSEntry)),
      hasDotlessLeaf d entries = true →
      ∀ (base : Int) (tbl : List TileRow),
        ∃ e, read_tiles compress zoom fmt d base entries tbl = .error e := by
  intro d
  induction d with
  | zero =>
    intro entries hdl base tbl
    exact leafPass_err compress zoom fmt entries hdl base tbl
  | succ d ihd =>
    intro entries hdl base tbl
    obtain ⟨p, hp, hpd⟩ := List.any_eq_true.mp hdl
    exact dirPass_err _ (d + 1) (get_dirs entries) p hp
      (fun b tbl' => ihd p.2.entries hpd b tbl') base tbl

/-- If one listed zoom directory's walk always fails (or its name does
not parse), the zoom pass fails. -/
theorem zoomPass_err (compress : List Nat → List Nat) (fmt : Option String)
    (l : List (String × FSEntry)) :
    ∀ p : String × FSEntry, p ∈ l →
    (∀ z : Int, pyInt p.1 = some z →
      ∀ tbl, ∃ e, read_tiles compress z fmt (if 2 ≤ z then 2 else 1) 0 p.2.entries tbl
          = .error e) →
    ∀ tbl : List TileRow, ∃ e, zoomPass compress fmt l tbl = .error e := by
  induction l with
  | nil =>
    intro p hp _ _
    exact absurd hp (List.not_mem_nil p)
  | cons q rest ih =>
    intro p hp herr tbl
    obtain ⟨name, entry⟩ := q
    rcases List.mem_cons.mp hp with hq | hp'
    · subst hq
      dsimp only at herr
      cases hz0 : pyInt name with
      | none => exact ⟨.valueError, by simp [zoomPass, hz0]⟩
      | some z =>
        obtain ⟨e, he⟩ := herr z hz0 tbl
        exact ⟨e, by simp [zoomPass, hz0, he]⟩
    · cases hz0 : pyInt name with
      | none => exact ⟨.valueError, by simp [zoomPass, hz0]⟩
      | some z =>
        cases hrt : read_tiles compress z fmt (if 2 ≤ z then 2 else 1) 0 entry.entries tbl with
        | error e => exact ⟨e, by simp [zoomPass, hz0, hrt]⟩
        | ok tbl1 =>
          obtain ⟨e, he⟩ := ih p hp' herr tbl1
          exact ⟨e, by simp [zoomPass, hz0, hrt, he]⟩

/-- C9: success of the import requires every leaf file name to contain a
dot.  If some zoom directory of the root would be walked down to a leaf
entry whose name has no dot (the source's name.split call then yields a
single part and unpacking it into two raises ValueError), then the
whole run aborts with an error. -/
theorem import_aborts_on_dotless_leaf_name (compress : List Nat → List Nat)
    (pj : List Nat → Except PyErr (List (String × String)))
    (root : List (String × FSEntry)) (fmt : Option String)
    (p : String × FSEntry) (hp : p ∈ get_dirs root)
    (hdl : ∀ z : Int, pyInt p.1 = some z →
      hasDotlessLeaf (if 2 ≤ z then 2 else 1) p.2.entries = true) :
    ∃ e, disk_to_mbtiles compress pj root fmt = .error e := by
  unfold disk_to_mbtiles
  dsimp only
  cases hf : findFile root ("metadata.json") with
  | none =>
    obtain ⟨e, he⟩ := zoomPass_err compress (some (fmt.getD ("gph"))) (get_dirs root) p hp
      (fun z hz tbl => read_tiles_err compress z (some (fmt.getD ("gph")))
        (if 2 ≤ z then 2 else 1) p.2.entries (hdl z hz) 0 tbl) []
    exact ⟨e, by dsimp only; rw [he]⟩
  | some content =>
    cases hpj : pj content with
    | error e2 => exact ⟨e2, by dsimp only; rw [hpj]⟩
    | ok pairs =>
      obtain ⟨e, he⟩ := zoomPass_err compress fmt (get_dirs root) p hp
        (fun z hz tbl => read_tiles_err compress z fmt
          (if 2 ≤ z then 2 else 1) p.2.entries (hdl z hz) 0 tbl) []
      exact ⟨e, by dsimp only; rw [hpj, he]⟩

/-- Witness for C9 on the tree 0/1/nodot (the leaf file name has no
dot). -/
theorem import_aborts_on_dotless_leaf_name_witness :
    ∃ e, disk_to_mbtiles id (fun _ => .error .valueError)
      [(("0" : String), FSEntry.dir [(("1" : String), FSEntry.dir
        [(("nodot" : String), FSEntry.file [])])])] (some ("png")) = .error e :=
  import_aborts_on_dotless_leaf_name id (fun _ => .error .valueError)
    [(("0" : String), FSEntry.dir [(("1" : String), FSEntry.dir
      [(("nodot" : String), FSEntry.file [])])])] (some ("png"))
    (("0" : String), FSEntry.dir [(("1" : String), FSEntry.dir
      [(("nodot" : String), FSEntry.file [])])])
    (List.Mem.head _)
    (fun z hz => by
      have h0 : some (0 : Int) = some z := Eq.trans (by rfl) hz
      have hzz := Option.some.inj h0
      subst hzz
      decide)

/-- C5: the row-flip function equals (2^zoom - 1) - row and is an
involution: flipping twice returns the original row, for every
non-negative zoom and every row with 0 ≤ r < 2^zoom. -/
theorem flip_y_involutive (z r : Int) (hz : 0 ≤ z) (hr0 : 0 ≤ r) (hr : r < 2 ^ z.toNat) :
    flip_y z r = (2 ^ z.toNat - 1) - r ∧ flip_y z (flip_y z r) = r := by
  refine ⟨rfl, ?_⟩
  unfold flip_y
  ring

/-- Witness for C5 at zoom 3, row 5. -/
theorem flip_y_involutive_witness :
    flip_y 3 5 = (2 ^ (3 : Int).toNat - 1) - 5 ∧ flip_y 3 (flip_y 3 5) = 5 :=
  flip_y_involutive 3 5 (by decide) (by decide) (by decide)

/-- C6: under the wms scheme the path of the tile at column 1234567,
row 7654321, zoom 5 is 05/001/234/567/007/654 with leaf file
321.<format>. -/
theorem wms_path_digit_groups (fmt : String) :
    tile_path (some ("wms")) (some fmt) 5 1234567 7654321
      = [("05" : String), ("001" : String), ("234" : String), ("567" : String),
         ("007" : String), ("654" : String), ("321." : String) ++ fmt] :=
  rfl

/-- Witness for C6 at format png. -/
theorem wms_path_digit_groups_witness :
    tile_path (some ("wms")) (some ("png")) 5 1234567 7654321
      = [("05" : String), ("001" : String), ("234" : String), ("567" : String),
         ("007" : String), ("654" : String), ("321.png" : String)] :=
  wms_path_digit_groups ("png")

/-- C7: when the export target directory already exists, os.mkdir fails
before anything is written: the operation aborts with OSError and the
list of file writes it would have performed is empty (the error result
carries no writes). -/
theorem export_target_exists_aborts (metadata : List (String × String)) (tiles : List TileRow)
    (scheme format : Option String) :
    mbtiles_to_disk metadata tiles scheme format true = .error .osError :=
  rfl

/-- Witness for C7 on a non-empty archive. -/
theorem export_target_exists_aborts_witness :
    mbtiles_to_disk [(("name" : String), ("x" : String))] [TileRow.mk 0 0 0 [1]]
      (some ("xyz")) (some ("png")) true = .error .osError :=
  export_target_exists_aborts [(("name" : String), ("x" : String))] [TileRow.mk 0 0 0 [1]]
    (some ("xyz")) (some ("png"))

/-- C10: the metadata dump is read-only: it returns the archive
unchanged, performs no file writes, and its logged output depends only
on the metadata table, not on the tiles table. -/
theorem metadata_dump_read_only (md : List (String × String)) (tiles tiles' : List TileRow)
    (silent silent' : Bool) :
    (mbtiles_metadata_to_disk (Archive.mk md tiles) silent).1 = Archive.mk md tiles
    ∧ (mbtiles_metadata_to_disk (Archive.mk md tiles) silent).2.1 = []
    ∧ (mbtiles_metadata_to_disk (Archive.mk md tiles) silent).2.2
        = (mbtiles_metadata_to_disk (Archive.mk md tiles') silent').2.2 :=
  ⟨rfl, rfl, rfl⟩

/-- Witness for C10 on a concrete archive. -/
theorem metadata_dump_read_only_witness :
    (mbtiles_metadata_to_disk (Archive.mk [(("format" : String), ("png" : String))] [TileRow.mk 1 2 3 [4]]) false).1
        = Archive.mk [(("format" : String), ("png" : String))] [TileRow.mk 1 2 3 [4]]
    ∧ (mbtiles_metadata_to_disk (Archive.mk [(("format" : String), ("png" : String))] [TileRow.mk 1 2 3 [4]]) false).2.1 = []
    ∧ (mbtiles_metadata_to_disk (Archive.mk [(("format" : String), ("png" : String))] [TileRow.mk 1 2 3 [4]]) false).2.2
        = (mbtiles_metadata_to_disk (Archive.mk [(("format" : String), ("png" : String))] []) true).2.2 :=
  metadata_dump_read_only [(("format" : String), ("png" : String))] [TileRow.mk 1 2 3 [4]] [] false true

/-- C2: the source's `if (ext != image_format): pass` is a no-op, so a
leaf file whose extension does not match the format option is not
skipped: importing 3/1/2/5.png with format gph inserts a tiles row for
it (tile id 1002005, so column 35 and row 11133 at zoom 3, with the
compressed bytes).  This refutes the claim that such files are silently
skipped; the dead conditional shows skipping was the intent. -/
theorem mismatched_extension_file_still_inserted :
    disk_to_mbtiles (fun l => 0 :: l) (fun _ => .error .valueError)
      [(("3" : String), .dir [(("1" : String), .dir [(("2" : String),
        .dir [(("5.png" : String), .file [9])])])])]
      (some ("gph"))
    = .ok ([], [TileRow.mk 3 35 11133 [0, 9]]) :=
  rfl

end Mbutil
